import Mathlib

/-!
Shallow embedding of `index.js` of keystone-rest: route-generation and
request-handling logic for auto-generated REST endpoints over mongoose
models.  Field values of documents are modelled by the inductive `Value`,
documents by ordered association lists, and each route handler by a pure
function from the request data and the persisted stores to the response
(and, for mutating handlers, the resulting store).
-/

namespace KeystoneRest

/-- JSON-ish values stored in documents and carried in request bodies.
`vId` models a mongo ObjectId, `vNull` models JS null/undefined results,
`vDoc` models a nested (for example populated) document. -/
inductive Value where
  | vNull : Value
  | vStr (s : String) : Value
  | vNum (n : Int) : Value
  | vId (n : Nat) : Value
  | vList (vs : List Value) : Value
  | vDoc (fields : List (String × Value)) : Value

mutual

/-- Structural equality test for values. -/
def valueBEq : Value → Value → Bool
  | .vNull, .vNull => true
  | .vStr a, .vStr b => a == b
  | .vNum a, .vNum b => a == b
  | .vId a, .vId b => a == b
  | .vList a, .vList b => valueListBEq a b
  | .vDoc a, .vDoc b => valueFieldsBEq a b
  | _, _ => false

/-- Structural equality test for lists of values. -/
def valueListBEq : List Value → List Value → Bool
  | [], [] => true
  | a :: as, b :: bs => valueBEq a b && valueListBEq as bs
  | _, _ => false

/-- Structural equality test for documents. -/
def valueFieldsBEq : List (String × Value) → List (String × Value) → Bool
  | [], [] => true
  | (k1, v1) :: as, (k2, v2) :: bs => k1 == k2 && valueBEq v1 v2 && valueFieldsBEq as bs
  | _, _ => false

end

mutual

theorem valueBEq_sound : ∀ (a b : Value), valueBEq a b = true → a = b
  | .vNull, .vNull, _ => rfl
  | .vStr a, .vStr b, h => by
    simp only [valueBEq, beq_iff_eq] at h; exact congrArg Value.vStr h
  | .vNum a, .vNum b, h => by
    simp only [valueBEq, beq_iff_eq] at h; exact congrArg Value.vNum h
  | .vId a, .vId b, h => by
    simp only [valueBEq, beq_iff_eq] at h; exact congrArg Value.vId h
  | .vList a, .vList b, h => congrArg Value.vList (valueListBEq_sound a b h)
  | .vDoc a, .vDoc b, h => congrArg Value.vDoc (valueFieldsBEq_sound a b h)

theorem valueListBEq_sound : ∀ (a b : List Value), valueListBEq a b = true → a = b
  | [], [], _ => rfl
  | a :: as, b :: bs, h => by
    simp only [valueListBEq, Bool.and_eq_true] at h
    rw [valueBEq_sound a b h.1, valueListBEq_sound as bs h.2]

theorem valueFieldsBEq_sound :
    ∀ (a b : List (String × Value)), valueFieldsBEq a b = true → a = b
  | [], [], _ => rfl
  | (k1, v1) :: as, (k2, v2) :: bs, h => by
    simp only [valueFieldsBEq, Bool.and_eq_true, beq_iff_eq] at h
    rw [h.1.1, valueBEq_sound v1 v2 h.1.2, valueFieldsBEq_sound as bs h.2]

end

mutual

theorem valueBEq_refl : ∀ (a : Value), valueBEq a a = true
  | .vNull => rfl
  | .vStr a => by simp [valueBEq]
  | .vNum a => by simp [valueBEq]
  | .vId a => by simp [valueBEq]
  | .vList a => valueListBEq_refl a
  | .vDoc a => valueFieldsBEq_refl a

theorem valueListBEq_refl : ∀ (a : List Value), valueListBEq a a = true
  | [] => rfl
  | a :: as => by
    simp only [valueListBEq, Bool.and_eq_true]
    exact ⟨valueBEq_refl a, valueListBEq_refl as⟩

theorem valueFieldsBEq_refl : ∀ (a : List (String × Value)), valueFieldsBEq a a = true
  | [] => rfl
  | (k, v) :: as => by
    simp only [valueFieldsBEq, Bool.and_eq_true, beq_iff_eq]
    exact ⟨⟨trivial, valueBEq_refl v⟩, valueFieldsBEq_refl as⟩

end

instance : DecidableEq Value := fun a b =>
  if h : valueBEq a b = true then isTrue (valueBEq_sound a b h)
  else isFalse (fun he => h (he ▸ valueBEq_refl a))

/-- A document: an ordered association list from field names to values. -/
abbrev Doc := List (String × Value)

/-- A persisted collection. -/
abbrev Store := List Doc

/-- Read a field of a document (JS property lookup; `none` = undefined). -/
def getField (d : Doc) (k : String) : Option Value :=
  (d.find? (fun p => decide (p.1 = k))).map (·.2)

/-- JS property assignment: overwrite an existing key in place, append a
new key at the end. -/
def setField (d : Doc) (k : String) (v : Value) : Doc :=
  if d.any (fun p => decide (p.1 = k)) then
    d.map (fun p => if p.1 = k then (k, v) else p)
  else d ++ [(k, v)]

/-- The keys of a document in order. -/
def docKeys (d : Doc) : List String := d.map (·.1)

/-- lodash `_.omit`: drop the listed keys from a document. -/
def omitKeys (d : Doc) (ks : List String) : Doc :=
  d.filter (fun p => decide (p.1 ∉ ks))

/-- lodash `_.extend item body`: assign every field of `body` onto `item`. -/
def extendDoc (item body : Doc) : Doc :=
  body.foldl (fun acc kv => setField acc kv.1 kv.2) item

/-! ## Schema model

Mirrors the mongoose schema metadata that `index.js` reads:
`path.options.restSelected`, `path.options.restEditable`, `path.options.ref`,
`path.options.type` being an array whose element carries `ref` /
`restEditable` (the `caster` of an array path), and the schema-level
`options.versionKey`.  `none` models an absent (undefined) flag. -/

/-- Options of the element type of an array path (`options.type[0]`,
also reachable as the path's `caster.options`). -/
structure ElemOptions where
  ref : Option String := none
  restEditable : Option Bool := none
deriving DecidableEq

/-- Whether a path's `options.type` is an array (with the given element
options) or not. -/
inductive FieldKind where
  | scalar : FieldKind
  | arrayOf (elem : ElemOptions) : FieldKind
deriving DecidableEq

/-- The options object of one schema path. -/
structure PathOptions where
  ref : Option String := none
  kind : FieldKind := .scalar
  restSelected : Option Bool := none
  restEditable : Option Bool := none
  defaultVal : Option Value := none
deriving DecidableEq

/-- One entry of `schema.paths`. -/
structure SchemaPath where
  path : String
  options : PathOptions
deriving DecidableEq

/-- A mongoose schema as read by `index.js`: the ordered paths and the
`versionKey` option. -/
structure Schema where
  paths : List SchemaPath
  versionKey : String := "__v"
deriving DecidableEq

/-- JS `Array.prototype.join(' ')`. -/
def joinSpace : List String → String
  | [] => ""
  | [x] => x
  | x :: y :: t => x ++ " " ++ joinSpace (y :: t)

/-- List-of-chars version of `joinSpace`, used for reasoning. -/
def joinChars : List (List Char) → List Char
  | [] => []
  | [x] => x
  | x :: y :: t => x ++ (' ' :: joinChars (y :: t))

/-- JS `hay.indexOf(needle) > -1` helper: does `needle` start `hay`? -/
def charsStart : List Char → List Char → Bool
  | _, [] => true
  | [], _ :: _ => false
  | a :: as, b :: bs => decide (a = b) && charsStart as bs

/-- JS `hay.indexOf(needle) > -1`: does `needle` occur contiguously in
`hay`? -/
def charsHave : List Char → List Char → Bool
  | [], n => n.isEmpty
  | a :: t, n => charsStart (a :: t) n || charsHave t n

/-- JS substring containment test `hay.indexOf(needle) > -1` on strings. -/
def strHas (hay needle : String) : Bool :=
  charsHave hay.data needle.data

/-- `_getSelected` before the final `join(' ')`: the paths whose
`restSelected` option is not strictly equal to `false`. -/
def getSelectedList (schema : Schema) : List String :=
  (schema.paths.filter (fun p => decide (p.options.restSelected ≠ some false))).map (·.path)

/-- `_getSelected(schema)`: the space-joined list of selected paths, the
string handed to mongoose `select`. -/
def getSelected (schema : Schema) : String :=
  joinSpace (getSelectedList schema)

/-- `_getUneditable(schema)`: paths with `restEditable === false`, or array
paths whose element type has `restEditable === false`. -/
def getUneditable (schema : Schema) : List String :=
  (schema.paths.filter (fun p =>
    decide (p.options.restEditable = some false) ||
    (match p.options.kind with
     | .arrayOf e => decide (e.restEditable = some false)
     | .scalar => false))).map (·.path)

/-- Whether a schema declares the field as not visible
(`restSelected: false`). -/
def isHiddenPath (schema : Schema) (f : String) : Bool :=
  schema.paths.any (fun p => decide (p.path = f) && decide (p.options.restSelected = some false))

/-- Whether a schema declares the field as not editable
(`restEditable: false` on the path itself). -/
def isUneditablePath (schema : Schema) (f : String) : Bool :=
  schema.paths.any (fun p => decide (p.path = f) && decide (p.options.restEditable = some false))

/-- `_getRefName(Model, path)`: `options.ref` for a one-to-one reference,
else `options.type[0].ref` for a one-to-many reference. -/
def getRefName (schema : Schema) (path : String) : Option String :=
  match schema.paths.find? (fun p => decide (p.path = path)) with
  | none => none
  | some p =>
    match p.options.ref with
    | some r => some r
    | none =>
      match p.options.kind with
      | .arrayOf e => e.ref
      | .scalar => none

/-- `Model.schema.paths[relationship].caster.options.ref`, used by the
relationship sub-route: the element ref of an array path. -/
def getCasterRef (schema : Schema) (path : String) : Option String :=
  match schema.paths.find? (fun p => decide (p.path = path)) with
  | none => none
  | some p =>
    match p.options.kind with
    | .arrayOf e => e.ref
    | .scalar => none

/-! ## Query layer

The mongo operations the handlers invoke: equality-criteria matching,
inclusive field projection (which always keeps `_id`), sorting, skip and
limit, and reference population. -/

/-- A document matches an equality-criteria map iff every criterion field
holds the given value. -/
def matchesCriteria (criteria : List (String × Value)) (d : Doc) : Bool :=
  criteria.all (fun kv => decide (getField d kv.1 = some kv.2))

/-- Mongo inclusive projection: keep the listed fields; `_id` is always
returned. -/
def project (fields : List String) (d : Doc) : Doc :=
  d.filter (fun p => decide (p.1 = "_id") || decide (p.1 ∈ fields))

/-- `Model.findOne(criteria)`: first matching document. -/
def findOne (store : Store) (criteria : List (String × Value)) : Option Doc :=
  (store.filter (matchesCriteria criteria)).head?

/-- Find a document by its `_id` value (`findById`, and lodash
`_.findWhere(response, \x7b _id \x7d)`, which compares by value). -/
def findWhereId (store : Store) (v : Value) : Option Doc :=
  store.find? (fun d => decide (getField d "_id" = some v))

/-- Rank used to order values of different shapes under mongo sort. -/
def valRank : Value → Nat
  | .vNull => 0
  | .vNum _ => 1
  | .vStr _ => 2
  | .vDoc _ => 3
  | .vList _ => 4
  | .vId _ => 5

/-- Total comparison of field values for mongo `sort`. -/
def valLe : Value → Value → Bool
  | .vNum a, .vNum b => decide (a ≤ b)
  | .vStr a, .vStr b => decide (a ≤ b)
  | .vId a, .vId b => decide (a ≤ b)
  | a, b => decide (valRank a ≤ valRank b)

/-- Compare two documents on a sort key; a missing field sorts first. -/
def fieldLe (k : String) (d1 d2 : Doc) : Bool :=
  match getField d1 k, getField d2 k with
  | none, _ => true
  | some _, none => false
  | some a, some b => valLe a b

/-- Insert a document into a list sorted by `le`. -/
def insertSorted (le : Doc → Doc → Bool) (d : Doc) : List Doc → List Doc
  | [] => [d]
  | x :: xs => if le d x then d :: x :: xs else x :: insertSorted le d xs

/-- Mongo `sort` on one key (ascending), as an insertion sort. -/
def sortDocs (k : String) (l : List Doc) : List Doc :=
  l.foldr (insertSorted (fieldLe k)) []

/-- Apply an optional `limit`. -/
def takeLimit (limit : Option Nat) (l : List Doc) : List Doc :=
  match limit with
  | none => l
  | some n => l.take n

/-- The pipeline of `Model.find(criteria).skip(..).limit(..).sort(..)`:
mongo filters, then sorts, then skips, then limits. -/
def mongoFind (store : Store) (criteria : List (String × Value))
    (sortKey : Option String) (skip : Nat) (limit : Option Nat) : List Doc :=
  let m := store.filter (matchesCriteria criteria)
  let s := match sortKey with
           | none => m
           | some k => sortDocs k m
  takeLimit limit (s.drop skip)

/-- Project through an optional field list (`none` = no projection). -/
def projectOpt : Option (List String) → Doc → Doc
  | none, d => d
  | some fs, d => project fs d

/-- Populate one value holding reference ids: an id becomes the referenced
document (projected through `sel` when given, mongoose sets `null` when the
id resolves to nothing), an array of ids becomes an array of documents,
anything else is left alone. -/
def populateValue (refStore : Store) (sel : Option (List String)) : Value → Value
  | .vId n =>
    match findWhereId refStore (.vId n) with
    | some d => .vDoc (projectOpt sel d)
    | none => .vNull
  | .vList vs =>
    .vList (vs.map (fun v =>
      match v with
      | .vId n =>
        match findWhereId refStore (.vId n) with
        | some d => .vDoc (projectOpt sel d)
        | none => .vNull
      | other => other))
  | v => v

/-- `query.populate(\x7b path, select \x7d)` for one path of a document:
resolve the path's ref model and replace the stored ids by the referenced
documents.  When `useRefSelect` is set the populated documents are
projected through the referenced schema's own selected-field set (the
List/Show handlers); otherwise they are returned whole (the Update handler
and the relationship sub-route). -/
def populatePathWith (stores : String → Store) (refSchemas : String → Schema)
    (useRefSelect : Bool) (schema : Schema) (d : Doc) (path : String) : Doc :=
  match getRefName schema path with
  | none => d
  | some ref =>
    match getField d path with
    | none => d
    | some v =>
      let sel := if useRefSelect then some (getSelectedList (refSchemas ref)) else none
      setField d path (populateValue (stores ref) sel v)

/-- JS `a < b` as used in the version check `req.body[versionKey] <
item[versionKey]`: comparing anything with `undefined` is false, numbers
and strings compare normally. -/
def jsLtOpt : Option Value → Option Value → Bool
  | some (.vNum a), some (.vNum b) => decide (a < b)
  | some (.vStr a), some (.vStr b) => decide (a < b)
  | _, _ => false

/-- `_flattenRelationships` on one body value, given the options of its
schema path: string values are returned untouched; for a reference path a
nested object is replaced by its `_id` (JS `field._id`, `undefined` when
absent); for an array-of-references path every non-string truthy element is
replaced by its `_id` likewise. -/
def flattenOne (opts : PathOptions) (v : Value) : Value :=
  match v with
  | .vStr s => .vStr s
  | v =>
    let v1 :=
      if opts.ref.isSome then
        match v with
        | .vDoc d => (getField d "_id").getD .vNull
        | _ => .vNull
      else v
    match opts.kind with
    | .arrayOf e =>
      if e.ref.isSome then
        match v1 with
        | .vList vs =>
          .vList (vs.map (fun x =>
            match x with
            | .vStr s => .vStr s
            | .vNull => .vNull
            | .vNum n => if n = 0 then .vNum n else .vNull
            | .vDoc d => (getField d "_id").getD .vNull
            | _ => .vNull))
        | other => other
      else v1
    | .scalar => v1

/-- `_flattenRelationships(model, body)`: convert fields that are
relationships to plain ids.  Body keys without a schema path are left
untouched. -/
def flattenRelationships (schema : Schema) (body : Doc) : Doc :=
  body.map (fun kv =>
    match schema.paths.find? (fun p => decide (p.path = kv.1)) with
    | none => kv
    | some p => (kv.1, flattenOne p.options kv.2))

/-- `item.save()` after an in-place merge: replace the stored document that
has the item's `_id` by the merged document. -/
def saveDoc (store : Store) (item item' : Doc) : Store :=
  store.map (fun d => if getField d "_id" = getField item "_id" then item' else d)

/-! ## Request parsing helpers -/

/-- Splitting a character list at a separator (JS `String.prototype.split`
with a one-character separator). -/
def splitAux (sep : Char) : List Char → List Char → List (List Char)
  | [], cur => [cur.reverse]
  | c :: t, cur => if c = sep then cur.reverse :: splitAux sep t [] else splitAux sep t (c :: cur)

/-- JS `s.split(sep)` for a one-character separator. -/
def splitOnChar (sep : Char) (s : String) : List String :=
  (splitAux sep s.data []).map (fun l => ⟨l⟩)

/-- `req.query.populate ? req.query.populate.split(',') : []`, with the JS
falsiness of the empty string. -/
def splitPopulate : Option String → List String
  | none => []
  | some s => if s = "" then [] else splitOnChar ',' s

/-- The `select` handling common to the List, Show and Update handlers:
`req.query.select.split(',')` filtered by `selected.indexOf(field) > -1`,
then `querySelect || selected` — the schema-selected list is used when no
(or an empty, or a fully filtered-out) select parameter is given. -/
def effectiveSelect (selectedList : List String) (selectedStr : String)
    (qselect : Option String) : List String :=
  match qselect with
  | none => selectedList
  | some raw =>
    if raw = "" then selectedList
    else
      let qs := (splitOnChar ',' raw).filter (fun f => strHas selectedStr f)
      if qs = [] then selectedList else qs

/-- `req.params.id` rendered into the 404 message: the actual parameter is
stored under the route's parameter name, so the lookup yields the raw value
only when that name is literally `id`, and JS `undefined` otherwise. -/
def paramsId (paramName paramRaw : String) : String :=
  if paramName = "id" then paramRaw else "undefined"

/-! ## Route handlers -/

/-- The request data of the List handler. -/
structure ListReq where
  qselect : Option String := none
  qpopulate : Option String := none
  criteria : List (String × Value) := []
  skip : Nat := 0
  limit : Option Nat := none
  sortKey : Option String := none

/-- The List response: the `total` header and the JSON array body. -/
structure ListResp where
  total : Nat
  body : List Doc
deriving DecidableEq

/-- The `GET /api/collection` handler of `_addList`: counts the whole
collection with `Model.find().count()`, runs the criteria query with
skip, limit, sort and projection, populates each requested path through
the referenced schema's selected-field set, and reports the count in the
`total` header. -/
def listHandler (schema : Schema) (refSchemas : String → Schema)
    (stores : String → Store) (store : Store) (req : ListReq) : ListResp :=
  let selectedList := getSelectedList schema
  let selectedStr := getSelected schema
  let populated := splitPopulate req.qpopulate
  let fields := effectiveSelect selectedList selectedStr req.qselect
  let count := store.length
  let docs := mongoFind store req.criteria req.sortKey req.skip req.limit
  let docs := docs.map (project fields)
  let docs := populated.foldl
    (fun acc p => acc.map (fun d => populatePathWith stores refSchemas true schema d p)) docs
  { total := count, body := docs }

/-- Result of the Show handler. -/
inductive ShowResult where
  | notFound (message : String) : ShowResult
  | ok (body : Doc) : ShowResult
deriving DecidableEq

/-- The `GET /api/collection/:model` handler of `_addShow`: find one
document by the resolved lookup key, project, populate through the
referenced schema's selected-field set, or answer 404 with the
`status: missing` body. -/
def showHandler (schema : Schema) (refSchemas : String → Schema)
    (stores : String → Store) (collectionName paramName findBy : String)
    (paramRaw : String) (paramVal : Value) (qselect qpopulate : Option String)
    (store : Store) : ShowResult :=
  let selectedList := getSelectedList schema
  let selectedStr := getSelected schema
  let populated := splitPopulate qpopulate
  let fields := effectiveSelect selectedList selectedStr qselect
  let criteria := [(findBy, paramVal)]
  match findOne store criteria with
  | none =>
    .notFound ("Could not find " ++ collectionName ++ " with id " ++ paramsId paramName paramRaw)
  | some r =>
    let r := project fields r
    let r := populated.foldl (fun d p => populatePathWith stores refSchemas true schema d p) r
    .ok r

/-- `new Model(body)` followed by mongoose defaulting: build the stored
document from the (flattened) body, keeping only schema paths, applying
the schema default for paths the body does not set, and assigning the new
`_id`. -/
def buildDoc (schema : Schema) (newId : Nat) (body : Doc) : Doc :=
  ("_id", Value.vId newId) ::
  schema.paths.filterMap (fun p =>
    if p.path = "_id" then none
    else
      match getField body p.path with
      | some v => some (p.path, v)
      | none =>
        match p.options.defaultVal with
        | some dv => some (p.path, dv)
        | none => none)

/-- The `POST /api/collection` handler of `_addCreate`: flatten
relationships in the body, construct and save the item, then re-fetch it by
`_id` projected through the schema's selected-field set.  Note the body is
used as-is apart from relationship flattening — `_addCreate` never receives
the uneditable list.  Returns the JSON response and the new store. -/
def createHandler (schema : Schema) (store : Store) (newId : Nat)
    (body : Doc) : Option Doc × Store :=
  let body := flattenRelationships schema body
  let item := buildDoc schema newId body
  let store' := store ++ [item]
  let resp := (findWhereId store' (.vId newId)).map (project (getSelectedList schema))
  (resp, store')

/-- Result of the Update handler. -/
inductive UpdateResult where
  | notFound (message : String) : UpdateResult
  | versionConflict : UpdateResult
  | ok (body : Option Doc) : UpdateResult
deriving DecidableEq

/-- The `PUT`/`PATCH /api/collection/:model` handler of `_addUpdate`:
flatten relationships, strip the uneditable fields from the body, find the
document, reject with a `VersionError` when the body's version token is
less than the stored one, else merge, save, and re-fetch with projection
and population — `query.populate(populated)` carries no `select`, so the
populated documents are not projected through the referenced schema's
selected-field set.  Returns the result and the resulting store. -/
def updateHandler (schema : Schema) (refSchemas : String → Schema)
    (stores : String → Store) (collectionName paramName findBy : String)
    (paramRaw : String) (paramVal : Value) (qselect qpopulate : Option String)
    (body : Doc) (store : Store) : UpdateResult × Store :=
  let selectedList := getSelectedList schema
  let selectedStr := getSelected schema
  let versionKey := schema.versionKey
  let uneditable := getUneditable schema
  let populated := splitPopulate qpopulate
  let fields := effectiveSelect selectedList selectedStr qselect
  let criteria := [(findBy, paramVal)]
  let body := flattenRelationships schema body
  let body := omitKeys body uneditable
  match findOne store criteria with
  | none =>
    (.notFound ("Could not find " ++ collectionName ++ " with id " ++ paramsId paramName paramRaw),
     store)
  | some item =>
    if jsLtOpt (getField body versionKey) (getField item versionKey) then
      (.versionConflict, store)
    else
      let item' := extendDoc item body
      let store' := saveDoc store item item'
      let resp := (findOne store' criteria).map (fun d =>
        let d := project fields d
        populated.foldl (fun dd p => populatePathWith stores refSchemas false schema dd p) d)
      (.ok resp, store')

/-- Result of the Delete handler. -/
inductive DeleteResult where
  | notFound (message : String) : DeleteResult
  | ok (message : String) : DeleteResult
deriving DecidableEq

/-- The `DELETE /api/collection/:model` handler of `_addDelete`: find the
document by the resolved key (404 with the `status: missing` body when
absent), remove it, and confirm.  Returns the result and the resulting
store. -/
def deleteHandler (collectionName paramName findBy : String)
    (paramRaw : String) (paramVal : Value) (store : Store) : DeleteResult × Store :=
  let criteria := [(findBy, paramVal)]
  match findOne store criteria with
  | none =>
    (.notFound ("Could not find " ++ collectionName ++ " with id " ++ paramsId paramName paramRaw),
     store)
  | some item =>
    (.ok ("Successfully deleted " ++ collectionName),
     store.filter (fun d => decide (getField d "_id" ≠ getField item "_id")))

/-- Result of the relationship sub-route handler.  The body entries are
optional because `_.findWhere` yields `undefined` (serialized `null`) for a
stored id the query did not return. -/
inductive RelResult where
  | notFound (message : String) : RelResult
  | ok (total : Nat) (body : List (Option Doc)) : RelResult
deriving DecidableEq

/-- The `GET /api/collection/:id/relationship` handler of `_addList`: find
the parent by id, read the stored relationship array, query the referenced
collection restricted to those ids with criteria, pagination, sort, select
(filtered by substring against the referenced schema's selected string) and
populate (no select), and, when no sort was requested, reorder the results
into the order the ids are stored on the parent. -/
def relationshipHandler (schema : Schema) (refSchemas : String → Schema)
    (stores : String → Store) (collectionName relationship : String)
    (idRaw : String) (idVal : Value) (store : Store)
    (criteria : List (String × Value)) (skip : Nat) (limit : Option Nat)
    (sortKey : Option String) (qselect qpopulate : Option String) : RelResult :=
  match findWhereId store idVal with
  | none => .notFound ("Could not find " ++ collectionName ++ " with id " ++ idRaw)
  | some result =>
    let ids := match getField result relationship with
               | some (.vList vs) => vs
               | _ => []
    let total := ids.length
    let ref := (getCasterRef schema relationship).getD ""
    let refSchema := refSchemas ref
    let refSelectedStr := getSelected refSchema
    let m := (stores ref).filter (fun d =>
      matchesCriteria criteria d &&
      (match getField d "_id" with
       | some v => decide (v ∈ ids)
       | none => false))
    let s := match sortKey with
             | none => m
             | some k => sortDocs k m
    let paged := takeLimit limit (s.drop skip)
    let projected :=
      match qselect with
      | none => paged
      | some raw =>
        if raw = "" then paged
        else paged.map (project ((splitOnChar ',' raw).filter (fun f => strHas refSelectedStr f)))
    let popd :=
      match qpopulate with
      | none => projected
      | some p =>
        if p = "" then projected
        else projected.map (fun d => populatePathWith stores refSchemas false refSchema d p)
    let body := match sortKey with
                | none => ids.map (fun id => findWhereId popd id)
                | some _ => popd.map some
    .ok total body

/-! ## Route registry -/

/-- One entry of `self.routes` (the handler closure itself is not part of
the comparison, so it is not carried here). -/
structure RouteDescriptor (M : Type) where
  method : String
  middleware : List M
  route : String
deriving DecidableEq

/-- The route descriptors `_addList` pushes: the collection list route with
the supplied middleware, then one relationship sub-route per registered
relationship, each with an empty middleware array. -/
def addListRoutes {M : Type} (collectionName : String) (middleware : List M)
    (relationships : List String) : List (RouteDescriptor M) :=
  { method := "get", middleware := middleware,
    route := "/api/" ++ collectionName.toLower } ::
  relationships.map (fun rel =>
    { method := "get", middleware := [],
      route := "/api/" ++ collectionName.toLower ++ "/:id/" ++ rel })

/-- A value holding plain reference data: an id, null, or an array of ids
and nulls — the shape a reference field has before population. -/
def refLike : Value → Bool
  | .vId _ => true
  | .vNull => true
  | .vList vs => vs.all (fun v =>
      match v with
      | .vId _ => true
      | .vNull => true
      | _ => false)
  | _ => false

/-- Whether the key `g` is absent from the top level of every document
directly held by the value — the check applied to populated reference
fields. -/
def keysAbsentShallow (g : String) : Value → Bool
  | .vDoc d => !(decide (g ∈ docKeys d))
  | .vList vs => vs.all (fun v =>
      match v with
      | .vDoc d => !(decide (g ∈ docKeys d))
      | _ => true)
  | _ => true

/-! ## Concrete example collections

Mirrors `test/models`: a `User` collection with a hidden `password`, an
uneditable `token` and a many-reference `posts`, and a `Post` collection
with a hidden field. -/

/-- The `Post` schema of the test models (`hidden` has
`restSelected: false`). -/
def postsSchemaEx : Schema :=
  { paths := [
      ⟨"_id", {}⟩,
      ⟨"title", {}⟩,
      ⟨"hidden", { restSelected := some false }⟩,
      ⟨"body", {}⟩,
      ⟨"__v", { defaultVal := some (.vNum 0) }⟩ ] }

/-- The `User` schema of the test models (`password` has
`restSelected: false`, `token` has `restEditable: false`, `posts` is an
array of references to `Post`). -/
def usersSchemaEx : Schema :=
  { paths := [
      ⟨"_id", {}⟩,
      ⟨"name", {}⟩,
      ⟨"password", { restSelected := some false }⟩,
      ⟨"token", { restEditable := some false, defaultVal := some (.vStr "tok0") }⟩,
      ⟨"posts", { kind := .arrayOf { ref := some "Post" } }⟩,
      ⟨"__v", { defaultVal := some (.vNum 0) }⟩ ] }

/-- Schema lookup by model name (`mongoose.model(name).schema`). -/
def refSchemasEx : String → Schema :=
  fun n => if n = "Post" then postsSchemaEx else if n = "User" then usersSchemaEx else { paths := [] }

/-- A stored post carrying a value in its hidden field. -/
def postsStoreEx : Store :=
  [[("_id", .vId 10), ("title", .vStr "t"), ("hidden", .vStr "secret"),
    ("body", .vStr "b"), ("__v", .vNum 0)]]

/-- A stored user referencing the post. -/
def usersStoreEx : Store :=
  [[("_id", .vId 1), ("name", .vStr "u"), ("password", .vStr "pw"),
    ("token", .vStr "tok"), ("posts", .vList [.vId 10]), ("__v", .vNum 0)]]

/-- Store lookup by model name. -/
def storesEx : String → Store :=
  fun n => if n = "Post" then postsStoreEx else if n = "User" then usersStoreEx else []

/-- A store of two users of which exactly one matches the filter
`name = "a"`. -/
def c3StoreEx : Store :=
  [[("_id", .vId 1), ("name", .vStr "a")], [("_id", .vId 2), ("name", .vStr "b")]]

/-- A concrete stored post, used to exhibit the version field in a
projected response. -/
def c8DocEx : Doc :=
  [("_id", .vId 10), ("title", .vStr "t"), ("hidden", .vStr "secret"),
   ("body", .vStr "b"), ("__v", .vNum 0)]

/-- Modelled from the spec: the spec describes the select filter as "the
intersection of the comma-separated requested field names with the
collection's allowed-selected field set"; this definition follows those
words, for comparison with `effectiveSelect`. -/
def selectIntersection (allowed : List String) (raw : String) : List String :=
  (splitOnChar ',' raw).filter (fun f => decide (f ∈ allowed))

/-- A schema whose visible field `username` contains the hidden field name
`name` as a substring. -/
def c6SchemaEx : Schema :=
  { paths := [⟨"_id", {}⟩, ⟨"username", {}⟩,
              ⟨"name", { restSelected := some false }⟩, ⟨"__v", {}⟩] }

/-- The `posts` value of the JSON response of a concrete PUT request with
`populate=posts` on the example user. -/
def c1UpdateRespPosts : Option Value :=
  match (updateHandler usersSchemaEx refSchemasEx storesEx "users" "user" "_id" "1"
      (.vId 1) none (some "posts") [("name", .vStr "n2")] usersStoreEx).1 with
  | .ok (some d) => getField d "posts"
  | _ => none

/-! ## Supporting lemmas: documents and fields -/

theorem getField_cons (p : String × Value) (t : Doc) (k : String) :
    getField (p :: t) k = if p.1 = k then some p.2 else getField t k := by
  by_cases h : p.1 = k <;> simp [getField, List.find?_cons, h]

theorem getField_eq_none_iff (d : Doc) (k : String) :
    getField d k = none ↔ k ∉ docKeys d := by
  induction d with
  | nil => simp [getField, docKeys]
  | cons p t ih =>
    rw [getField_cons, show docKeys (p :: t) = p.1 :: docKeys t from rfl]
    by_cases h : p.1 = k
    · simp [h]
    · rw [if_neg h, ih]
      simp only [List.mem_cons]
      constructor
      · intro hnk hor
        rcases hor with h1 | h2
        · exact h h1.symm
        · exact hnk h2
      · intro hnk h2
        exact hnk (Or.inr h2)

theorem getField_mapSet (d : Doc) (q k : String) (v : Value) (h : k ≠ q) :
    getField (d.map (fun p => if p.1 = q then (q, v) else p)) k = getField d k := by
  induction d with
  | nil => rfl
  | cons p t ih =>
    simp only [List.map_cons]
    by_cases hp : p.1 = q
    · have hqk : q ≠ k := fun he => h he.symm
      have hpk : p.1 ≠ k := hp ▸ hqk
      rw [if_pos hp, getField_cons, getField_cons, if_neg hqk, if_neg hpk]
      exact ih
    · rw [if_neg hp, getField_cons, getField_cons]
      by_cases hk : p.1 = k
      · simp [hk]
      · simp only [if_neg hk]
        exact ih

theorem getField_appendOne_ne (d : Doc) (q k : String) (v : Value) (h : k ≠ q) :
    getField (d ++ [(q, v)]) k = getField d k := by
  induction d with
  | nil =>
    have hqk : q ≠ k := fun he => h he.symm
    simp [getField, List.find?, hqk]
  | cons p t ih =>
    rw [List.cons_append, getField_cons, getField_cons]
    by_cases hk : p.1 = k
    · simp [hk]
    · simp only [if_neg hk]
      exact ih

theorem getField_setField_ne (d : Doc) (q k : String) (v : Value) (h : k ≠ q) :
    getField (setField d q v) k = getField d k := by
  unfold setField
  by_cases hany : d.any (fun p => decide (p.1 = q)) = true
  · simp only [hany, if_true]
    exact getField_mapSet d q k v h
  · simp only [hany, if_false]
    exact getField_appendOne_ne d q k v h

theorem docKeys_mapSet (d : Doc) (q : String) (v : Value) :
    docKeys (d.map (fun p => if p.1 = q then (q, v) else p)) = docKeys d := by
  induction d with
  | nil => rfl
  | cons p t ih =>
    simp only [List.map_cons, docKeys] at *
    by_cases hp : p.1 = q
    · simp [hp, ih]
    · simp [hp, ih]

theorem docKeys_setField_of_mem (d : Doc) (q : String) (v : Value)
    (h : d.any (fun p => decide (p.1 = q)) = true) :
    docKeys (setField d q v) = docKeys d := by
  unfold setField
  simp only [h, if_true]
  exact docKeys_mapSet d q v

theorem omitKeys_cons (p : String × Value) (t : Doc) (ks : List String) :
    omitKeys (p :: t) ks = if p.1 ∈ ks then omitKeys t ks else p :: omitKeys t ks := by
  by_cases h : p.1 ∈ ks <;> simp [omitKeys, List.filter_cons, h]

theorem getField_omitKeys_mem (d : Doc) (ks : List String) (k : String) (h : k ∈ ks) :
    getField (omitKeys d ks) k = none := by
  induction d with
  | nil => rfl
  | cons p t ih =>
    rw [omitKeys_cons]
    by_cases hp : p.1 ∈ ks
    · rw [if_pos hp]; exact ih
    · have hne : p.1 ≠ k := fun he => hp (he ▸ h)
      rw [if_neg hp, getField_cons, if_neg hne]
      exact ih

theorem getField_omitKeys_not_mem (d : Doc) (ks : List String) (k : String) (h : k ∉ ks) :
    getField (omitKeys d ks) k = getField d k := by
  induction d with
  | nil => rfl
  | cons p t ih =>
    rw [omitKeys_cons, getField_cons]
    by_cases hp : p.1 ∈ ks
    · have hne : p.1 ≠ k := fun he => h (he ▸ hp)
      rw [if_pos hp, if_neg hne]
      exact ih
    · rw [if_neg hp, getField_cons]
      by_cases hk : p.1 = k
      · simp [hk]
      · simp only [if_neg hk]
        exact ih

theorem getField_extendDoc_not_mem (item body : Doc) (k : String)
    (h : k ∉ docKeys body) :
    getField (extendDoc item body) k = getField item k := by
  induction body generalizing item with
  | nil => rfl
  | cons p t ih =>
    simp only [docKeys, List.map_cons, List.mem_cons] at h
    push_neg at h
    simp only [extendDoc, List.foldl_cons]
    rw [show List.foldl (fun acc kv => setField acc kv.1 kv.2) (setField item p.1 p.2) t =
        extendDoc (setField item p.1 p.2) t from rfl]
    rw [ih (setField item p.1 p.2) h.2]
    exact getField_setField_ne item p.1 k p.2 h.1

/-! ## Supporting lemmas: projection and lookup -/

theorem getField_project (fields : List String) (d : Doc) (k : String) :
    getField (project fields d) k =
      if k = "_id" ∨ k ∈ fields then getField d k else none := by
  induction d with
  | nil => by_cases h : k = "_id" ∨ k ∈ fields <;> simp [project, getField, h]
  | cons p t ih =>
    have hcons : project fields (p :: t) =
        if p.1 = "_id" ∨ p.1 ∈ fields then p :: project fields t else project fields t := by
      by_cases h : p.1 = "_id" ∨ p.1 ∈ fields <;> simp [project, List.filter_cons, h]
    rw [hcons]
    by_cases hp : p.1 = "_id" ∨ p.1 ∈ fields
    · rw [if_pos hp, getField_cons]
      by_cases hk : p.1 = k
      · rw [if_pos hk, if_pos (hk ▸ hp), getField_cons, if_pos hk]
      · rw [if_neg hk, ih]
        by_cases hkf : k = "_id" ∨ k ∈ fields
        · rw [if_pos hkf, if_pos hkf, getField_cons, if_neg hk]
        · rw [if_neg hkf, if_neg hkf]
    · rw [if_neg hp, ih]
      by_cases hkf : k = "_id" ∨ k ∈ fields
      · by_cases hk : p.1 = k
        · exact absurd (hk ▸ hkf) hp
        · rw [if_pos hkf, if_pos hkf, getField_cons, if_neg hk]
      · rw [if_neg hkf, if_neg hkf]

theorem mem_docKeys_project (fields : List String) (d : Doc) (k : String)
    (h : k ∈ docKeys (project fields d)) : k = "_id" ∨ k ∈ fields := by
  by_contra hc
  have hnone : getField (project fields d) k = none := by
    rw [getField_project, if_neg hc]
  exact ((getField_eq_none_iff _ _).mp hnone) h

theorem findOne_matches (store : Store) (criteria : List (String × Value)) (d : Doc)
    (h : findOne store criteria = some d) :
    matchesCriteria criteria d = true ∧ d ∈ store := by
  unfold findOne at h
  have hmem : d ∈ store.filter (matchesCriteria criteria) := by
    cases hf : store.filter (matchesCriteria criteria) with
    | nil => rw [hf] at h; cases h
    | cons a t => rw [hf] at h; simp at h; simp [h]
  exact ⟨List.of_mem_filter hmem, List.mem_of_mem_filter hmem⟩

theorem findWhereId_some (store : Store) (v : Value) (d : Doc)
    (h : findWhereId store v = some d) :
    getField d "_id" = some v ∧ d ∈ store := by
  unfold findWhereId at h
  refine ⟨?_, List.mem_of_find?_eq_some h⟩
  have := List.find?_some h
  exact of_decide_eq_true this

/-! ## Supporting lemmas: field policy -/

theorem mem_getSelectedList_iff (schema : Schema) (x : String) :
    x ∈ getSelectedList schema ↔
      ∃ p ∈ schema.paths, p.path = x ∧ p.options.restSelected ≠ some false := by
  unfold getSelectedList
  simp only [List.mem_map, List.mem_filter, decide_eq_true_eq]
  constructor
  · rintro ⟨p, ⟨hp, hs⟩, he⟩
    exact ⟨p, hp, he, hs⟩
  · rintro ⟨p, hp, he, hs⟩
    exact ⟨p, ⟨hp, hs⟩, he⟩

theorem not_mem_selectedList_of_hidden (schema : Schema) (f : String)
    (hnodup : (schema.paths.map (·.path)).Nodup)
    (hf : isHiddenPath schema f = true) :
    f ∉ getSelectedList schema := by
  intro hmem
  rcases (mem_getSelectedList_iff schema f).mp hmem with ⟨q, hq, hqe, hqs⟩
  unfold isHiddenPath at hf
  rcases List.any_eq_true.mp hf with ⟨p, hp, hpb⟩
  rw [Bool.and_eq_true, decide_eq_true_eq, decide_eq_true_eq] at hpb
  have hpq : p = q :=
    List.inj_on_of_nodup_map hnodup hp hq (by rw [hpb.1, hqe])
  exact hqs (hpq ▸ hpb.2)

theorem mem_getUneditable_of_flag (schema : Schema) (f : String)
    (hf : isUneditablePath schema f = true) :
    f ∈ getUneditable schema := by
  unfold isUneditablePath at hf
  rcases List.any_eq_true.mp hf with ⟨p, hp, hpb⟩
  rw [Bool.and_eq_true, decide_eq_true_eq, decide_eq_true_eq] at hpb
  unfold getUneditable
  refine List.mem_map.mpr ⟨p, List.mem_filter.mpr ⟨hp, ?_⟩, hpb.1⟩
  simp [hpb.2]

/-! ## Supporting lemmas: the substring select filter -/

theorem charsStart_append_self (n r : List Char) : charsStart (n ++ r) n = true := by
  induction n with
  | nil => cases r <;> rfl
  | cons c t ih => simp [charsStart, ih]

theorem charsHave_of_start (h n : List Char) (hs : charsStart h n = true) :
    charsHave h n = true := by
  cases h with
  | nil =>
    cases n with
    | nil => rfl
    | cons c t => simp [charsStart] at hs
  | cons a t => simp [charsHave, hs]

theorem charsHave_append_left (p t n : List Char) (h : charsHave t n = true) :
    charsHave (p ++ t) n = true := by
  induction p with
  | nil => simpa using h
  | cons a q ih => simp [charsHave, ih]

theorem strHas_of_mem (l : List String) (f : String) (h : f ∈ l) :
    strHas (joinSpace l) f = true := by
  induction l with
  | nil => cases h
  | cons x t ih =>
    rcases List.mem_cons.mp h with he | ht
    · subst he
      cases t with
      | nil =>
        unfold strHas joinSpace
        exact charsHave_of_start _ _ (by simpa using charsStart_append_self f.data [])
      | cons y s =>
        unfold strHas joinSpace
        rw [String.data_append, String.data_append]
        exact charsHave_of_start _ _
          (by simpa using charsStart_append_self f.data ((" ").data ++ (joinSpace (y :: s)).data))
    · cases t with
      | nil => cases ht
      | cons y s =>
        unfold strHas joinSpace
        rw [String.data_append, String.data_append]
        exact charsHave_append_left _ _ _ (ih ht)

theorem not_mem_effectiveSelect (selectedList : List String) (selectedStr : String)
    (qselect : Option String) (f : String)
    (hsel : f ∉ selectedList) (hsub : strHas selectedStr f = false) :
    f ∉ effectiveSelect selectedList selectedStr qselect := by
  unfold effectiveSelect
  cases qselect with
  | none => exact hsel
  | some raw =>
    by_cases hraw : raw = ""
    · simp only [hraw, if_pos rfl]
      exact hsel
    · simp only [if_neg hraw]
      by_cases hqs : (splitOnChar ',' raw).filter (fun g => strHas selectedStr g) = []
      · simp only [hqs, if_pos rfl]
        exact hsel
      · simp only [hqs, if_neg hqs]
        intro hmem
        have := List.of_mem_filter hmem
        rw [hsub] at this
        cases this

/-! ## Supporting lemmas: sorting -/

theorem valLe_total (a b : Value) : valLe a b = true ∨ valLe b a = true := by
  cases a <;> cases b <;> simp [valLe, valRank] <;>
    first
      | omega
      | exact le_total _ _

theorem valLe_trans (a b c : Value) (h1 : valLe a b = true) (h2 : valLe b c = true) :
    valLe a c = true := by
  cases a <;> cases b <;> cases c <;>
    simp [valLe, valRank] at h1 h2 ⊢ <;>
    first
      | omega
      | exact le_trans h1 h2

theorem fieldLe_total (k : String) (d1 d2 : Doc) :
    fieldLe k d1 d2 = true ∨ fieldLe k d2 d1 = true := by
  unfold fieldLe
  cases getField d1 k <;> cases getField d2 k <;> simp
  exact valLe_total _ _

theorem fieldLe_trans (k : String) (d1 d2 d3 : Doc)
    (h1 : fieldLe k d1 d2 = true) (h2 : fieldLe k d2 d3 = true) :
    fieldLe k d1 d3 = true := by
  unfold fieldLe at h1 h2 ⊢
  cases h1k : getField d1 k with
  | none => simp [h1k]
  | some a =>
    cases h2k : getField d2 k with
    | none => simp [h1k, h2k] at h1
    | some b =>
      cases h3k : getField d3 k with
      | none => simp [h2k, h3k] at h2
      | some c =>
        simp only [h1k, h2k] at h1
        simp only [h2k, h3k] at h2
        simp only [h1k, h3k]
        exact valLe_trans a b c h1 h2

theorem mem_insertSorted (le : Doc → Doc → Bool) (d : Doc) (l : List Doc) (y : Doc) :
    y ∈ insertSorted le d l ↔ y = d ∨ y ∈ l := by
  induction l with
  | nil => simp [insertSorted]
  | cons x xs ih =>
    rw [insertSorted]
    by_cases hdx : le d x = true
    · simp [hdx]
    · simp only [Bool.not_eq_true] at hdx
      simp [hdx, ih]
      tauto

theorem pairwise_insertSorted (le : Doc → Doc → Bool)
    (htot : ∀ a b, le a b = true ∨ le b a = true)
    (htrans : ∀ a b c, le a b = true → le b c = true → le a c = true)
    (d : Doc) (l : List Doc) (hl : l.Pairwise (fun a b => le a b = true)) :
    (insertSorted le d l).Pairwise (fun a b => le a b = true) := by
  induction l with
  | nil => simp [insertSorted]
  | cons x xs ih =>
    rw [insertSorted]
    rcases List.pairwise_cons.mp hl with ⟨hx, hxs⟩
    by_cases hdx : le d x = true
    · simp only [hdx, if_true]
      refine List.pairwise_cons.mpr ⟨?_, hl⟩
      intro y hy
      rcases List.mem_cons.mp hy with he | hm
      · exact he ▸ hdx
      · exact htrans d x y hdx (hx y hm)
    · simp only [hdx, if_false]
      refine List.pairwise_cons.mpr ⟨?_, ih hxs⟩
      intro y hy
      rcases (mem_insertSorted le d xs y).mp hy with he | hm
      · rcases htot d x with hc | hc
        · exact absurd hc hdx
        · exact he ▸ hc
      · exact hx y hm

theorem pairwise_sortDocs (k : String) (l : List Doc) :
    (sortDocs k l).Pairwise (fun a b => fieldLe k a b = true) := by
  unfold sortDocs
  induction l with
  | nil => simp
  | cons x t ih =>
    rw [List.foldr_cons]
    exact pairwise_insertSorted (fieldLe k) (fieldLe_total k)
      (fieldLe_trans k) x _ ih

theorem pairwise_map_project (k : String) (fs : List String) (l : List Doc)
    (h : l.Pairwise (fun a b => fieldLe k a b = true)) :
    (l.map (project fs)).Pairwise (fun a b => fieldLe k a b = true) := by
  rw [List.pairwise_map]
  refine h.imp ?_
  intro a b hab
  unfold fieldLe at hab ⊢
  rw [getField_project, getField_project]
  by_cases hc : k = "_id" ∨ k ∈ fs
  · rw [if_pos hc, if_pos hc]
    exact hab
  · rw [if_neg hc, if_neg hc]

theorem pairwise_takeLimit (limit : Option Nat) (l : List Doc)
    (R : Doc → Doc → Prop) (h : l.Pairwise R) : (takeLimit limit l).Pairwise R := by
  cases limit with
  | none => exact h
  | some n => exact h.sublist (List.take_sublist n l)

/-! ## Supporting lemmas: body processing -/

theorem not_mem_docKeys_omitKeys (d : Doc) (ks : List String) (k : String) (h : k ∈ ks) :
    k ∉ docKeys (omitKeys d ks) :=
  (getField_eq_none_iff (omitKeys d ks) k).mp (getField_omitKeys_mem d ks k h)

theorem getField_flattenRelationships (schema : Schema) (body : Doc) (k : String) :
    getField (flattenRelationships schema body) k =
      (getField body k).map (fun v =>
        match schema.paths.find? (fun p => decide (p.path = k)) with
        | none => v
        | some p => flattenOne p.options v) := by
  induction body with
  | nil => rfl
  | cons kv t ih =>
    unfold flattenRelationships at ih ⊢
    rw [List.map_cons, getField_cons, getField_cons]
    by_cases hk : kv.1 = k
    · subst hk
      cases hf : schema.paths.find? (fun p => decide (p.path = kv.1)) with
      | none => simp [hf]
      | some p => simp [hf]
    · have h1 : (match schema.paths.find? (fun (p : SchemaPath) => decide (p.path = kv.1)) with
          | none => kv
          | some p => (kv.1, flattenOne p.options kv.2)).1 = kv.1 := by
        cases schema.paths.find? (fun (p : SchemaPath) => decide (p.path = kv.1)) <;> rfl
      rw [h1, if_neg hk, if_neg hk]
      exact ih

theorem docKeys_flattenRelationships (schema : Schema) (body : Doc) :
    docKeys (flattenRelationships schema body) = docKeys body := by
  unfold flattenRelationships docKeys
  rw [List.map_map]
  apply List.map_congr_left
  intro kv _
  simp only [Function.comp_apply]
  cases schema.paths.find? (fun (p : SchemaPath) => decide (p.path = kv.1)) <;> rfl

theorem getField_flatten_none (schema : Schema) (body : Doc) (k : String)
    (h : getField body k = none) :
    getField (flattenRelationships schema body) k = none := by
  rw [getField_flattenRelationships, h]
  rfl

theorem flattenOne_scalar_num (opts : PathOptions) (n : Int)
    (href : opts.ref = none) (hkind : opts.kind = FieldKind.scalar) :
    flattenOne opts (.vNum n) = .vNum n := by
  simp [flattenOne, href, hkind]

theorem jsLtOpt_none_left (x : Option Value) : jsLtOpt none x = false := by
  cases x with
  | none => rfl
  | some v => cases v <;> rfl

theorem getField_buildAux (body : Doc) (f : String) (v : Value)
    (hb : getField body f = some v) (hne : f ≠ "_id") :
    ∀ l : List SchemaPath, (∃ p ∈ l, p.path = f) →
      getField (l.filterMap (fun p =>
        if p.path = "_id" then none
        else
          match getField body p.path with
          | some v => some (p.path, v)
          | none =>
            match p.options.defaultVal with
            | some dv => some (p.path, dv)
            | none => none)) f = some v := by
  intro l
  induction l with
  | nil => rintro ⟨p, hp, _⟩; cases hp
  | cons q t ih =>
    rintro ⟨p0, hp0, hp0f⟩
    rw [List.filterMap_cons]
    by_cases hq : q.path = "_id"
    · simp only [hq, if_pos rfl]
      rcases List.mem_cons.mp hp0 with he | ht
      · exact absurd (he ▸ hp0f) (by rw [hq]; exact fun hh => hne hh.symm)
      · exact ih ⟨p0, ht, hp0f⟩
    · simp only [if_neg hq]
      by_cases hqf : q.path = f
      · subst hqf
        simp only [hb]
        simp [getField_cons]
      · cases hgb : getField body q.path with
        | some w =>
          simp only [hgb]
          rw [getField_cons]
          simp only [if_neg hqf]
          rcases List.mem_cons.mp hp0 with he | ht
          · exact absurd (he ▸ hp0f) hqf
          · exact ih ⟨p0, ht, hp0f⟩
        | none =>
          cases hdv : q.options.defaultVal with
          | some dv =>
            simp only [hgb, hdv]
            rw [getField_cons]
            simp only [if_neg hqf]
            rcases List.mem_cons.mp hp0 with he | ht
            · exact absurd (he ▸ hp0f) hqf
            · exact ih ⟨p0, ht, hp0f⟩
          | none =>
            simp only [hgb, hdv]
            rcases List.mem_cons.mp hp0 with he | ht
            · exact absurd (he ▸ hp0f) hqf
            · exact ih ⟨p0, ht, hp0f⟩

theorem getField_buildDoc_of_body (schema : Schema) (newId : Nat) (body : Doc)
    (f : String) (v : Value) (hne : f ≠ "_id")
    (hpath : ∃ p ∈ schema.paths, p.path = f) (hb : getField body f = some v) :
    getField (buildDoc schema newId body) f = some v := by
  unfold buildDoc
  rw [getField_cons, if_neg (fun h => hne h.symm)]
  exact getField_buildAux body f v hb hne schema.paths hpath

theorem mem_effectiveSelect_of_mem (selectedList : List String) (raw f : String)
    (hraw : raw ≠ "") (hmem : f ∈ splitOnChar ',' raw) (hf : f ∈ selectedList) :
    f ∈ effectiveSelect selectedList (joinSpace selectedList) (some raw) := by
  unfold effectiveSelect
  simp only [if_neg hraw]
  have hfil : f ∈ (splitOnChar ',' raw).filter (fun g => strHas (joinSpace selectedList) g) :=
    List.mem_filter.mpr ⟨hmem, strHas_of_mem selectedList f hf⟩
  have hne : (splitOnChar ',' raw).filter (fun g => strHas (joinSpace selectedList) g) ≠ [] :=
    fun he => by rw [he] at hfil; cases hfil
  simp only [if_neg hne]
  exact hfil

/-! ## Supporting lemmas: population -/

theorem any_key_of_getField_some (d : Doc) (k : String) (v : Value)
    (h : getField d k = some v) :
    d.any (fun p => decide (p.1 = k)) = true := by
  have hk : k ∈ docKeys d := by
    by_contra hc
    rw [(getField_eq_none_iff d k).mpr hc] at h
    cases h
  rcases List.mem_map.mp hk with ⟨pair, hpmem, hpe⟩
  exact List.any_eq_true.mpr ⟨pair, hpmem, by simp [hpe]⟩

theorem getField_mapSet_self (d : Doc) (k : String) (v : Value)
    (h : d.any (fun p => decide (p.1 = k)) = true) :
    getField (d.map (fun p => if p.1 = k then (k, v) else p)) k = some v := by
  induction d with
  | nil => cases h
  | cons p t ih =>
    simp only [List.map_cons]
    by_cases hp : p.1 = k
    · rw [if_pos hp, getField_cons]
      simp
    · rw [if_neg hp, getField_cons, if_neg hp]
      apply ih
      rw [List.any_cons] at h
      simp only [hp, decide_False, Bool.false_or] at h
      exact h

theorem getField_appendOne_self (d : Doc) (k : String) (v : Value)
    (h : d.any (fun p => decide (p.1 = k)) = false) :
    getField (d ++ [(k, v)]) k = some v := by
  induction d with
  | nil => simp [getField_cons]
  | cons p t ih =>
    rw [List.any_cons] at h
    rcases Bool.or_eq_false_iff.mp h with ⟨h1, h2⟩
    rw [List.cons_append, getField_cons, if_neg (by simpa using h1)]
    exact ih h2

theorem getField_setField_self (d : Doc) (k : String) (v : Value) :
    getField (setField d k v) k = some v := by
  unfold setField
  cases h : d.any (fun p => decide (p.1 = k)) with
  | true =>
    rw [if_pos rfl]
    exact getField_mapSet_self d k v h
  | false =>
    rw [if_neg (by simp : ¬ (false = true))]
    exact getField_appendOne_self d k v h

theorem docKeys_populatePathWith (stores : String → Store) (refSchemas : String → Schema)
    (u : Bool) (schema : Schema) (d : Doc) (p : String) :
    docKeys (populatePathWith stores refSchemas u schema d p) = docKeys d := by
  unfold populatePathWith
  cases getRefName schema p with
  | none => rfl
  | some ref =>
    cases hg : getField d p with
    | none => rfl
    | some v =>
      exact docKeys_setField_of_mem d p _ (any_key_of_getField_some d p v hg)

theorem getField_populatePathWith_ne (stores : String → Store)
    (refSchemas : String → Schema) (u : Bool) (schema : Schema) (d : Doc)
    (p q : String) (h : q ≠ p) :
    getField (populatePathWith stores refSchemas u schema d p) q = getField d q := by
  unfold populatePathWith
  cases getRefName schema p with
  | none => rfl
  | some ref =>
    cases hg : getField d p with
    | none => rfl
    | some v => exact getField_setField_ne d p q _ h

theorem refLike_keysAbsent (g : String) (v : Value) (h : refLike v = true) :
    keysAbsentShallow g v = true := by
  cases v with
  | vId n => rfl
  | vNull => rfl
  | vStr s => cases h
  | vNum n => cases h
  | vDoc d => cases h
  | vList vs =>
    unfold refLike at h
    unfold keysAbsentShallow
    rw [List.all_eq_true] at h ⊢
    intro x hx
    have := h x hx
    cases x <;> first | rfl | cases this

theorem keysAbsent_populateValue (refStore : Store) (sel : List String) (g : String)
    (hg : g ∉ sel) (hgid : g ≠ "_id") (v : Value)
    (hv : refLike v = true ∨ keysAbsentShallow g v = true) :
    keysAbsentShallow g (populateValue refStore (some sel) v) = true := by
  have habs : ∀ d : Doc, (decide (g ∈ docKeys (project sel d)) : Bool) = false := by
    intro d
    rw [decide_eq_false_iff_not]
    intro hc
    rcases mem_docKeys_project sel d g hc with h1 | h2
    · exact hgid h1
    · exact hg h2
  cases v with
  | vId n =>
    simp only [populateValue]
    cases hf : findWhereId refStore (.vId n) with
    | none => simp [keysAbsentShallow]
    | some d => simp [keysAbsentShallow, projectOpt, habs d]
  | vNull => rfl
  | vStr s => rfl
  | vNum n => rfl
  | vDoc d0 =>
    rcases hv with h | h
    · cases h
    · exact h
  | vList vs =>
    simp only [populateValue, keysAbsentShallow]
    rw [List.all_eq_true]
    intro x hx
    rcases List.mem_map.mp hx with ⟨x0, hx0, he⟩
    subst he
    cases x0 with
    | vId n =>
      cases hf : findWhereId refStore (.vId n) with
      | none => simp [hf]
      | some d => simp [hf, projectOpt, habs d]
    | vNull => rfl
    | vStr s => rfl
    | vNum n => rfl
    | vList l0 => rfl
    | vDoc d0 =>
      rcases hv with h | h
      · unfold refLike at h
        rw [List.all_eq_true] at h
        have := h (Value.vDoc d0) hx0
        cases this
      · unfold keysAbsentShallow at h
        rw [List.all_eq_true] at h
        exact h (Value.vDoc d0) hx0

theorem populateFold_value (stores : String → Store) (refSchemas : String → Schema)
    (schema : Schema) (p refC g : String)
    (hrefName : getRefName schema p = some refC)
    (hg : g ∉ getSelectedList (refSchemas refC)) (hgid : g ≠ "_id") :
    ∀ (paths : List String) (d : Doc),
      (∀ v, getField d p = some v → refLike v = true ∨ keysAbsentShallow g v = true) →
      ∀ v, getField (paths.foldl
          (fun dd q => populatePathWith stores refSchemas true schema dd q) d) p = some v →
        refLike v = true ∨ keysAbsentShallow g v = true := by
  intro paths
  induction paths with
  | nil => intro d hinit v hv; exact hinit v hv
  | cons q t ih =>
    intro d hinit v hv
    rw [List.foldl_cons] at hv
    refine ih (populatePathWith stores refSchemas true schema d q) ?_ v hv
    intro w hw
    by_cases hqp : q = p
    · subst hqp
      unfold populatePathWith at hw
      rw [hrefName] at hw
      cases hgd : getField d q with
      | none =>
        rw [hgd] at hw
        exact hinit w hw
      | some v0 =>
        rw [hgd] at hw
        rw [getField_setField_self] at hw
        injection hw with hw
        subst hw
        exact Or.inr (keysAbsent_populateValue _ _ g hg hgid v0 (hinit v0 hgd))
    · rw [getField_populatePathWith_ne stores refSchemas true schema d q p
        (fun he => hqp he.symm)] at hw
      exact hinit w hw

theorem docKeys_populateFold (stores : String → Store) (refSchemas : String → Schema)
    (schema : Schema) (paths : List String) (d : Doc) :
    docKeys (paths.foldl
      (fun dd q => populatePathWith stores refSchemas true schema dd q) d) = docKeys d := by
  induction paths generalizing d with
  | nil => rfl
  | cons q t ih =>
    rw [List.foldl_cons, ih, docKeys_populatePathWith]

theorem foldl_map_comm (f : Doc → String → Doc) (paths : List String) (docs : List Doc) :
    paths.foldl (fun acc p => acc.map (fun d => f d p)) docs =
      docs.map (fun d => paths.foldl f d) := by
  induction paths generalizing docs with
  | nil => simp
  | cons q t ih =>
    rw [List.foldl_cons, ih, List.map_map]
    rfl

theorem mem_of_mem_sortDocs (k : String) (l : List Doc) (y : Doc)
    (h : y ∈ sortDocs k l) : y ∈ l := by
  unfold sortDocs at h
  induction l with
  | nil => cases h
  | cons x t ih =>
    rw [List.foldr_cons] at h
    rcases (mem_insertSorted _ _ _ _).mp h with he | hm
    · simp [he]
    · exact List.mem_cons.mpr (Or.inr (ih hm))

theorem mem_of_mem_mongoFind (store : Store) (criteria : List (String × Value))
    (sortKey : Option String) (skip : Nat) (limit : Option Nat) (y : Doc)
    (h : y ∈ mongoFind store criteria sortKey skip limit) : y ∈ store := by
  unfold mongoFind takeLimit at h
  have hdrop : ∀ (l : List Doc), y ∈ (match limit with
      | none => l
      | some n => l.take n) → y ∈ l := by
    intro l hl
    cases limit with
    | none => exact hl
    | some n => exact List.take_subset n l hl
  have h1 := hdrop _ h
  have h2 : y ∈ (match sortKey with
      | none => store.filter (matchesCriteria criteria)
      | some k => sortDocs k (store.filter (matchesCriteria criteria))) :=
    List.drop_subset _ _ h1
  have h3 : y ∈ store.filter (matchesCriteria criteria) := by
    cases sortKey with
    | none => exact h2
    | some k => exact mem_of_mem_sortDocs k _ y h2
  exact List.mem_of_mem_filter h3

theorem getField_project_some (fields : List String) (d : Doc) (k : String) (v : Value)
    (h : getField (project fields d) k = some v) : getField d k = some v := by
  rw [getField_project] at h
  by_cases hc : k = "_id" ∨ k ∈ fields
  · rw [if_pos hc] at h
    exact h
  · rw [if_neg hc] at h
    cases h

/-! ## Claims -/

/-- C9: every relationship sub-route descriptor `_addList` pushes carries an
empty middleware chain, while the `GET /collection` descriptor carries the
middleware supplied for the list action, so list middleware runs on the
collection route but never on a relationship sub-route. -/
theorem c9_relationship_routes_empty_middleware {M : Type}
    (collectionName : String) (middleware : List M) (relationships : List String) :
    ((addListRoutes collectionName middleware relationships).head? =
      some { method := "get", middleware := middleware,
             route := "/api/" ++ collectionName.toLower }) ∧
    (∀ rel ∈ relationships,
      ({ method := "get", middleware := ([] : List M),
         route := "/api/" ++ collectionName.toLower ++ "/:id/" ++ rel } :
        RouteDescriptor M) ∈ addListRoutes collectionName middleware relationships) ∧
    (∀ r ∈ addListRoutes collectionName middleware relationships,
      r.route ≠ "/api/" ++ collectionName.toLower → r.middleware = []) := by
  refine ⟨rfl, ?_, ?_⟩
  · intro rel hrel
    exact List.mem_cons.mpr (Or.inr (List.mem_map.mpr ⟨rel, hrel, rfl⟩))
  · intro r hr hne
    rcases List.mem_cons.mp hr with he | hm
    · exact absurd (by rw [he]) hne
    · rcases List.mem_map.mp hm with ⟨rel, _, he⟩
      rw [← he]

/-- C9 witness: the relationship sub-route of a concrete registration has
no middleware while the list route has the supplied chain. -/
theorem c9_witness :
    ((addListRoutes "Users" [1] ["posts"]).head? =
      some { method := "get", middleware := [1], route := "/api/" ++ "Users".toLower }) ∧
    (∀ rel ∈ ["posts"],
      ({ method := "get", middleware := ([] : List Nat),
         route := "/api/" ++ "Users".toLower ++ "/:id/" ++ rel } :
        RouteDescriptor Nat) ∈ addListRoutes "Users" [1] ["posts"]) ∧
    (∀ r ∈ addListRoutes "Users" [1] ["posts"],
      r.route ≠ "/api/" ++ "Users".toLower → r.middleware = []) :=
  c9_relationship_routes_empty_middleware "Users" [1] ["posts"]

/-- C3 counterexample: the `total` header of a filtered List request is the
size of the whole collection (2), not the number of records matching the
filter criteria (1) — `_addList` computes it with `Model.find().count()`,
dropping the criteria. -/
theorem c3_counterexample :
    (listHandler usersSchemaEx refSchemasEx storesEx c3StoreEx
      { criteria := [("name", Value.vStr "a")] }).total = 2 ∧
    (c3StoreEx.filter (matchesCriteria [("name", Value.vStr "a")])).length = 1 ∧
    (listHandler usersSchemaEx refSchemasEx storesEx c3StoreEx
      { criteria := [("name", Value.vStr "a")] }).total ≠
      (c3StoreEx.filter (matchesCriteria [("name", Value.vStr "a")])).length := by
  refine ⟨rfl, rfl, ?_⟩
  decide

/-- C3 amended: the `total` header of every List request equals the number
of records in the whole collection — computed before skip and limit, but
also ignoring the request's filter criteria. -/
theorem c3_total_is_collection_size (schema : Schema) (refSchemas : String → Schema)
    (stores : String → Store) (store : Store) (req : ListReq) :
    (listHandler schema refSchemas stores store req).total = store.length := rfl

/-- C5: on a Show or Delete request whose key matches nothing the handler
answers 404 with `status: "missing"`, but the message interpolates
`req.params.id`, which is undefined because the path parameter is stored
under the model name — the requested identifier "abc" never appears. -/
theorem c5_missing_message_has_undefined_id :
    showHandler usersSchemaEx refSchemasEx storesEx "users" "user" "_id"
      "abc" (.vStr "abc") none none [] =
      .notFound "Could not find users with id undefined" ∧
    deleteHandler "users" "user" "_id" "abc" (.vStr "abc") [] =
      (.notFound "Could not find users with id undefined", []) := by
  exact ⟨rfl, rfl⟩

/-- C8 counterexample: `_getSelected` does not exclude the version field —
`__v` has no `restSelected: false` flag, so it is part of the selected list
and survives projection into a response. -/
theorem c8_counterexample :
    getSelectedList postsSchemaEx = ["_id", "title", "body", "__v"] ∧
    "__v" ∈ getSelectedList postsSchemaEx ∧
    getField (project (getSelectedList postsSchemaEx) c8DocEx) "__v" = some (.vNum 0) := by
  refine ⟨rfl, ?_, rfl⟩
  decide

/-- C8 amended: the selected-field computation returns exactly the fields
whose visible flag is not explicitly false; the version field gets no
special exclusion, so it is selected whenever its flag is not explicitly
false. -/
theorem c8_selected_iff_not_hidden (schema : Schema) (x : String) :
    (x ∈ getSelectedList schema ↔
      ∃ p ∈ schema.paths, p.path = x ∧ p.options.restSelected ≠ some false) ∧
    (∀ p ∈ schema.paths, p.path = schema.versionKey →
      p.options.restSelected ≠ some false → schema.versionKey ∈ getSelectedList schema) := by
  refine ⟨mem_getSelectedList_iff schema x, ?_⟩
  intro p hp hpv hps
  exact (mem_getSelectedList_iff schema schema.versionKey).mpr ⟨p, hp, hpv, hps⟩

/-- C8 witness: the characterization applied to the concrete post schema
and its version field. -/
theorem c8_witness :
    ("__v" ∈ getSelectedList postsSchemaEx ↔
      ∃ p ∈ postsSchemaEx.paths, p.path = "__v" ∧ p.options.restSelected ≠ some false) ∧
    (∀ p ∈ postsSchemaEx.paths, p.path = postsSchemaEx.versionKey →
      p.options.restSelected ≠ some false →
        postsSchemaEx.versionKey ∈ getSelectedList postsSchemaEx) :=
  c8_selected_iff_not_hidden postsSchemaEx "__v"

/-- C10: an Update whose body carries no version token at all is never
rejected by the version-conflict check — `undefined < anything` is false in
JS — and proceeds to merge and save, whatever the persisted version is. -/
theorem c10_missing_version_token_never_conflicts
    (schema : Schema) (refSchemas : String → Schema) (stores : String → Store)
    (cn pn fb praw : String) (pval : Value) (qsel qpop : Option String)
    (body : Doc) (store : Store) (item : Doc)
    (hb : getField body schema.versionKey = none)
    (hfind : findOne store [(fb, pval)] = some item) :
    ∃ r, updateHandler schema refSchemas stores cn pn fb praw pval qsel qpop body store =
      (UpdateResult.ok r,
       saveDoc store item (extendDoc item
         (omitKeys (flattenRelationships schema body) (getUneditable schema)))) := by
  have hflat : getField (flattenRelationships schema body) schema.versionKey = none :=
    getField_flatten_none schema body _ hb
  have homit : getField (omitKeys (flattenRelationships schema body)
      (getUneditable schema)) schema.versionKey = none := by
    by_cases hm : schema.versionKey ∈ getUneditable schema
    · exact getField_omitKeys_mem _ _ _ hm
    · rw [getField_omitKeys_not_mem _ _ _ hm]; exact hflat
  simp only [updateHandler]
  rw [hfind]
  simp only [homit, jsLtOpt_none_left, if_false]
  exact ⟨_, rfl⟩

/-- C10 witness: a concrete update without a version token merges and
saves against a stored record with version 5. -/
theorem c10_witness :
    getField [("name", Value.vStr "n2")] usersSchemaEx.versionKey = none ∧
    findOne [[("_id", Value.vId 1), ("name", Value.vStr "u"), ("__v", Value.vNum 5)]]
      [("_id", Value.vId 1)] =
      some [("_id", Value.vId 1), ("name", Value.vStr "u"), ("__v", Value.vNum 5)] ∧
    ∃ r, updateHandler usersSchemaEx refSchemasEx storesEx "users" "user" "_id"
        "1" (Value.vId 1) none none [("name", Value.vStr "n2")]
        [[("_id", Value.vId 1), ("name", Value.vStr "u"), ("__v", Value.vNum 5)]] =
      (UpdateResult.ok r,
       saveDoc [[("_id", Value.vId 1), ("name", Value.vStr "u"), ("__v", Value.vNum 5)]]
         [("_id", Value.vId 1), ("name", Value.vStr "u"), ("__v", Value.vNum 5)]
         (extendDoc [("_id", Value.vId 1), ("name", Value.vStr "u"), ("__v", Value.vNum 5)]
           (omitKeys (flattenRelationships usersSchemaEx [("name", Value.vStr "n2")])
             (getUneditable usersSchemaEx)))) :=
  ⟨rfl, rfl,
   c10_missing_version_token_never_conflicts usersSchemaEx refSchemasEx storesEx
     "users" "user" "_id" "1" (Value.vId 1) none none [("name", Value.vStr "n2")]
     [[("_id", Value.vId 1), ("name", Value.vStr "u"), ("__v", Value.vNum 5)]]
     [("_id", Value.vId 1), ("name", Value.vStr "u"), ("__v", Value.vNum 5)] rfl rfl⟩

/-- C4: an Update whose body carries a numeric version token strictly less
than the persisted record's version fails with the version-conflict error
and leaves the store untouched — no merge and no save happen.  The version
path is assumed to be a plain scalar that is not among the uneditable
fields, as mongoose's `__v` always is. -/
theorem c4_stale_version_rejected
    (schema : Schema) (refSchemas : String → Schema) (stores : String → Store)
    (cn pn fb praw : String) (pval : Value) (qsel qpop : Option String)
    (body : Doc) (store : Store) (item : Doc) (v pv : Int)
    (hvk : ∀ sp ∈ schema.paths, sp.path = schema.versionKey →
      sp.options.ref = none ∧ sp.options.kind = FieldKind.scalar)
    (hned : schema.versionKey ∉ getUneditable schema)
    (hfind : findOne store [(fb, pval)] = some item)
    (hbv : getField body schema.versionKey = some (.vNum v))
    (hiv : getField item schema.versionKey = some (.vNum pv))
    (hlt : v < pv) :
    updateHandler schema refSchemas stores cn pn fb praw pval qsel qpop body store =
      (UpdateResult.versionConflict, store) := by
  have hflat : getField (flattenRelationships schema body) schema.versionKey =
      some (.vNum v) := by
    rw [getField_flattenRelationships, hbv]
    cases hf : schema.paths.find? (fun (p : SchemaPath) => decide (p.path = schema.versionKey)) with
    | none => rfl
    | some p =>
      have hp := List.mem_of_find?_eq_some hf
      have hpe : p.path = schema.versionKey := by
        have hd := List.find?_some hf
        exact of_decide_eq_true hd
      rcases hvk p hp hpe with ⟨href, hkind⟩
      simp [flattenOne_scalar_num p.options v href hkind]
  have homit : getField (omitKeys (flattenRelationships schema body)
      (getUneditable schema)) schema.versionKey = some (.vNum v) := by
    rw [getField_omitKeys_not_mem _ _ _ hned]; exact hflat
  have hcond : jsLtOpt (some (.vNum v)) (some (.vNum pv)) = true := by
    simp [jsLtOpt, hlt]
  simp only [updateHandler]
  rw [hfind]
  simp only [homit, hiv, hcond, if_true]

/-- C4 witness: a concrete stale write (token 1 against stored version 2)
is rejected and the store is unchanged. -/
theorem c4_witness :
    (1 : Int) < 2 ∧
    updateHandler usersSchemaEx refSchemasEx storesEx "users" "user" "_id"
      "1" (Value.vId 1) none none [("name", Value.vStr "n2"), ("__v", Value.vNum 1)]
      [[("_id", Value.vId 1), ("name", Value.vStr "u"), ("__v", Value.vNum 2)]] =
      (UpdateResult.versionConflict,
       [[("_id", Value.vId 1), ("name", Value.vStr "u"), ("__v", Value.vNum 2)]]) :=
  ⟨by decide,
   c4_stale_version_rejected usersSchemaEx refSchemasEx storesEx "users" "user" "_id"
     "1" (Value.vId 1) none none [("name", Value.vStr "n2"), ("__v", Value.vNum 1)]
     [[("_id", Value.vId 1), ("name", Value.vStr "u"), ("__v", Value.vNum 2)]]
     [("_id", Value.vId 1), ("name", Value.vStr "u"), ("__v", Value.vNum 2)] 1 2
     (by decide) (by decide) rfl rfl rfl (by decide)⟩

/-- C2 counterexample: `_addCreate` never receives the uneditable list, so
a Create request that submits a value for the uneditable `token` field
persists that value instead of the schema default. -/
theorem c2_counterexample :
    isUneditablePath usersSchemaEx "token" = true ∧
    ((usersSchemaEx.paths.find? (fun (p : SchemaPath) => decide (p.path = "token"))).map
      (fun p => p.options.defaultVal)) = some (some (.vStr "tok0")) ∧
    (createHandler usersSchemaEx [] 7 [("name", .vStr "n"), ("token", .vStr "hacked")]).2.map
      (fun d => getField d "token") = [some (.vStr "hacked")] := by
  exact ⟨rfl, rfl, rfl⟩

/-- C2 amended: a field with `editable=false` is dropped only from Update
(PUT/PATCH) bodies — an Update can never change its persisted value — but
Create does not drop it: the submitted value is built into the persisted
record. -/
theorem c2_uneditable_dropped_on_update_only
    (schema : Schema) (refSchemas : String → Schema) (stores : String → Store)
    (cn pn fb praw : String) (pval : Value) (qsel qpop : Option String)
    (body : Doc) (store : Store) (f : String)
    (hf : isUneditablePath schema f = true)
    (hids : ∀ d1 ∈ store, ∀ d2 ∈ store, getField d1 "_id" = getField d2 "_id" → d1 = d2) :
    ((updateHandler schema refSchemas stores cn pn fb praw pval qsel qpop body store).2.map
        (fun d => getField d f) = store.map (fun d => getField d f)) ∧
    (f ≠ "_id" → ∀ newId v, getField (flattenRelationships schema body) f = some v →
      ∃ d, (createHandler schema store newId body).2 = store ++ [d] ∧ getField d f = some v) := by
  constructor
  · have hmem : f ∈ getUneditable schema := mem_getUneditable_of_flag schema f hf
    cases hfind : findOne store [(fb, pval)] with
    | none =>
      simp only [updateHandler]
      rw [hfind]
    | some item =>
      have hitem : item ∈ store := (findOne_matches store _ item hfind).2
      simp only [updateHandler]
      rw [hfind]
      cases hcond : jsLtOpt
          (getField (omitKeys (flattenRelationships schema body) (getUneditable schema))
            schema.versionKey)
          (getField item schema.versionKey) with
      | true => simp only [hcond, if_true]
      | false =>
        simp only [hcond]
        have hkeep : getField (extendDoc item
            (omitKeys (flattenRelationships schema body) (getUneditable schema))) f =
            getField item f :=
          getField_extendDoc_not_mem _ _ f
            (not_mem_docKeys_omitKeys _ _ f hmem)
        show List.map (fun d => getField d f)
            (saveDoc store item
              (extendDoc item
                (omitKeys (flattenRelationships schema body) (getUneditable schema)))) =
          List.map (fun d => getField d f) store
        unfold saveDoc
        rw [List.map_map]
        apply List.map_congr_left
        intro d hd
        simp only [Function.comp_apply]
        by_cases hsame : getField d "_id" = getField item "_id"
        · rw [if_pos hsame, hkeep, hids d hd item hitem hsame]
        · rw [if_neg hsame]
  · intro hne newId v hv
    refine ⟨buildDoc schema newId (flattenRelationships schema body), rfl, ?_⟩
    have hpath : ∃ p ∈ schema.paths, p.path = f := by
      rcases List.any_eq_true.mp hf with ⟨p, hp, hpb⟩
      rw [Bool.and_eq_true, decide_eq_true_eq, decide_eq_true_eq] at hpb
      exact ⟨p, hp, hpb.1⟩
    exact getField_buildDoc_of_body schema newId _ f v hne hpath hv

/-- C2 witness: on the concrete user store, a PUT that submits a new value
for the uneditable `token` leaves the stored token column unchanged, and a
POST that submits a token persists it. -/
theorem c2_witness :
    isUneditablePath usersSchemaEx "token" = true ∧
    (∀ d1 ∈ usersStoreEx, ∀ d2 ∈ usersStoreEx,
      getField d1 "_id" = getField d2 "_id" → d1 = d2) ∧
    (((updateHandler usersSchemaEx refSchemasEx storesEx "users" "user" "_id"
        "1" (Value.vId 1) none none [("token", Value.vStr "evil")] usersStoreEx).2.map
          (fun d => getField d "token") = usersStoreEx.map (fun d => getField d "token")) ∧
     ("token" ≠ "_id" → ∀ newId v,
        getField (flattenRelationships usersSchemaEx [("token", Value.vStr "evil")])
          "token" = some v →
        ∃ d, (createHandler usersSchemaEx usersStoreEx newId
            [("token", Value.vStr "evil")]).2 = usersStoreEx ++ [d] ∧
          getField d "token" = some v)) :=
  ⟨rfl, by decide,
   c2_uneditable_dropped_on_update_only usersSchemaEx refSchemasEx storesEx
     "users" "user" "_id" "1" (Value.vId 1) none none
     [("token", Value.vStr "evil")] usersStoreEx "token" rfl (by decide)⟩

/-- C6 counterexample: the select filter is substring containment against
the space-joined selected string, not set intersection — requesting the
hidden field `name` on a schema whose visible field is `username` passes
`name` to the projection, while the intersection with the allowed set is
empty. -/
theorem c6_counterexample :
    isHiddenPath c6SchemaEx "name" = true ∧
    effectiveSelect (getSelectedList c6SchemaEx) (getSelected c6SchemaEx)
      (some "name") = ["name"] ∧
    selectIntersection (getSelectedList c6SchemaEx) "name" = [] ∧
    effectiveSelect (getSelectedList c6SchemaEx) (getSelected c6SchemaEx)
      (some "name") ≠ selectIntersection (getSelectedList c6SchemaEx) "name" := by
  refine ⟨rfl, rfl, rfl, ?_⟩
  decide

/-- C6 amended: a requested select field is kept iff its name occurs as a
substring of the space-joined allowed-selected string: every requested
field belonging to the allowed set is kept, a requested field that is not
even a substring is silently dropped (never an error — the handler falls
back to the schema selection), and anything kept is a substring of the
allowed string or belongs to the allowed fallback. -/
theorem c6_select_filter_is_substring_match
    (selectedList : List String) (raw f : String)
    (hraw : raw ≠ "") (hmem : f ∈ splitOnChar ',' raw) :
    (f ∈ selectedList → f ∈ effectiveSelect selectedList (joinSpace selectedList) (some raw)) ∧
    (strHas (joinSpace selectedList) f = false →
      f ∉ effectiveSelect selectedList (joinSpace selectedList) (some raw)) ∧
    (f ∈ effectiveSelect selectedList (joinSpace selectedList) (some raw) →
      strHas (joinSpace selectedList) f = true ∨ f ∈ selectedList) := by
  refine ⟨?_, ?_, ?_⟩
  · intro hf
    exact mem_effectiveSelect_of_mem selectedList raw f hraw hmem hf
  · intro hsub
    have hnm : f ∉ selectedList := fun hc => by
      rw [strHas_of_mem selectedList f hc] at hsub
      cases hsub
    exact not_mem_effectiveSelect selectedList (joinSpace selectedList) (some raw) f hnm hsub
  · intro hf
    simp only [effectiveSelect] at hf
    rw [if_neg hraw] at hf
    by_cases hqs : (splitOnChar ',' raw).filter (fun g => strHas (joinSpace selectedList) g) = []
    · rw [if_pos hqs] at hf
      exact Or.inr hf
    · rw [if_neg hqs] at hf
      exact Or.inl (List.of_mem_filter hf)

/-- C6 witness: the characterization at the concrete schema where the
requested name `name` slips through as a substring of `username`. -/
theorem c6_witness :
    ("name" : String) ≠ "" ∧ "name" ∈ (splitOnChar ',' "name") ∧
    (("name" ∈ getSelectedList c6SchemaEx →
       "name" ∈ effectiveSelect (getSelectedList c6SchemaEx)
         (joinSpace (getSelectedList c6SchemaEx)) (some "name")) ∧
     (strHas (joinSpace (getSelectedList c6SchemaEx)) "name" = false →
       "name" ∉ effectiveSelect (getSelectedList c6SchemaEx)
         (joinSpace (getSelectedList c6SchemaEx)) (some "name")) ∧
     ("name" ∈ effectiveSelect (getSelectedList c6SchemaEx)
         (joinSpace (getSelectedList c6SchemaEx)) (some "name") →
       strHas (joinSpace (getSelectedList c6SchemaEx)) "name" = true ∨
       "name" ∈ getSelectedList c6SchemaEx)) :=
  ⟨by decide, by decide,
   c6_select_filter_is_substring_match (getSelectedList c6SchemaEx) "name" "name"
     (by decide) (by decide)⟩

/-- C7: on the relationship sub-route, when no `sort` parameter is given
the returned array has one slot per reference id stored on the parent
document, in exactly the stored order — the i-th returned record, when
found, carries the i-th stored id — and when a `sort` parameter is given
(and no populate rewrites the compared field) the returned records are in
the requested ascending order of that key. -/
theorem c7_relationship_list_order
    (schema : Schema) (refSchemas : String → Schema) (stores : String → Store)
    (cn relationship idRaw : String) (idVal : Value) (store : Store)
    (criteria : List (String × Value)) (skip : Nat) (limit : Option Nat)
    (qselect qpopulate : Option String) (result : Doc) (ids : List Value)
    (hfind : findWhereId store idVal = some result)
    (hrel : getField result relationship = some (.vList ids)) :
    (∃ body, relationshipHandler schema refSchemas stores cn relationship idRaw idVal store
        criteria skip limit none qselect qpopulate = .ok ids.length body ∧
      body.length = ids.length ∧
      (∀ i d, body.get? i = some (some d) →
        ∃ idv, ids.get? i = some idv ∧ getField d "_id" = some idv)) ∧
    (∀ k, ∃ l : List Doc, relationshipHandler schema refSchemas stores cn relationship idRaw idVal store
        criteria skip limit (some k) qselect none = .ok ids.length (l.map some) ∧
      l.Pairwise (fun a b => fieldLe k a b = true)) := by
  constructor
  · simp only [relationshipHandler, hfind, hrel]
    refine ⟨_, rfl, List.length_map _ _, ?_⟩
    intro i d hbody
    rw [List.get?_map] at hbody
    cases hidv : ids.get? i with
    | none => rw [hidv] at hbody; cases hbody
    | some idv =>
      rw [hidv] at hbody
      simp only [Option.map_some'] at hbody
      injection hbody with hb
      exact ⟨idv, rfl, (findWhereId_some _ _ _ hb).1⟩
  · intro k
    simp only [relationshipHandler, hfind, hrel]
    refine ⟨_, rfl, ?_⟩
    cases qselect with
    | none =>
      exact pairwise_takeLimit limit _ _
        ((pairwise_sortDocs k _).sublist (List.drop_sublist _ _))
    | some raw =>
      by_cases hraw : raw = ""
      · simp only [hraw, if_pos rfl]
        exact pairwise_takeLimit limit _ _
          ((pairwise_sortDocs k _).sublist (List.drop_sublist _ _))
      · simp only [if_neg hraw]
        exact pairwise_map_project k _ _
          (pairwise_takeLimit limit _ _
            ((pairwise_sortDocs k _).sublist (List.drop_sublist _ _)))

/-- C7 witness: the concrete user whose posts are stored as `[B, A]` gets
`[B, A]` back unsorted, and a title-sorted variant in ascending order. -/
theorem c7_witness :
    findWhereId
      [[("_id", Value.vId 1), ("name", Value.vStr "u"),
        ("posts", Value.vList [Value.vId 11, Value.vId 10])]] (Value.vId 1) =
      some [("_id", Value.vId 1), ("name", Value.vStr "u"),
            ("posts", Value.vList [Value.vId 11, Value.vId 10])] ∧
    getField [("_id", Value.vId 1), ("name", Value.vStr "u"),
        ("posts", Value.vList [Value.vId 11, Value.vId 10])] "posts" =
      some (.vList [Value.vId 11, Value.vId 10]) ∧
    ((∃ body, relationshipHandler usersSchemaEx refSchemasEx storesEx "users" "posts" "1"
        (Value.vId 1)
        [[("_id", Value.vId 1), ("name", Value.vStr "u"),
          ("posts", Value.vList [Value.vId 11, Value.vId 10])]]
        [] 0 none none none none = .ok [Value.vId 11, Value.vId 10].length body ∧
      body.length = [Value.vId 11, Value.vId 10].length ∧
      (∀ i d, body.get? i = some (some d) →
        ∃ idv, [Value.vId 11, Value.vId 10].get? i = some idv ∧
          getField d "_id" = some idv)) ∧
    (∀ k, ∃ l : List Doc, relationshipHandler usersSchemaEx refSchemasEx storesEx "users" "posts" "1"
        (Value.vId 1)
        [[("_id", Value.vId 1), ("name", Value.vStr "u"),
          ("posts", Value.vList [Value.vId 11, Value.vId 10])]]
        [] 0 none (some k) none none = .ok [Value.vId 11, Value.vId 10].length (l.map some) ∧
      l.Pairwise (fun a b => fieldLe k a b = true))) :=
  ⟨rfl, rfl,
   c7_relationship_list_order usersSchemaEx refSchemasEx storesEx "users" "posts" "1"
     (Value.vId 1)
     [[("_id", Value.vId 1), ("name", Value.vStr "u"),
       ("posts", Value.vList [Value.vId 11, Value.vId 10])]]
     [] 0 none none none
     [("_id", Value.vId 1), ("name", Value.vStr "u"),
      ("posts", Value.vList [Value.vId 11, Value.vId 10])]
     [Value.vId 11, Value.vId 10] rfl rfl⟩

/-- C1 amended: a field marked `restSelected: false` (whose name is not the
id key and does not occur as a substring of the space-joined selected
string) is absent from every List, Show and Create response and from every
Update response issued without a `populate` parameter; and nested populated
objects in List and Show responses never expose a hidden field of the
referenced collection.  (Update responses with `populate` are excluded: the
Update re-fetch populates without a select, which is the counterexample.) -/
theorem c1_hidden_field_absent
    (schema : Schema) (refSchemas : String → Schema) (stores : String → Store)
    (f : String)
    (hnodup : (schema.paths.map (·.path)).Nodup)
    (hf : isHiddenPath schema f = true)
    (hfid : f ≠ "_id")
    (hsub : strHas (getSelected schema) f = false) :
    (∀ store req, ∀ d ∈ (listHandler schema refSchemas stores store req).body,
      f ∉ docKeys d) ∧
    (∀ cn pn fb praw pval qsel qpop store r,
      showHandler schema refSchemas stores cn pn fb praw pval qsel qpop store =
        ShowResult.ok r → f ∉ docKeys r) ∧
    (∀ store newId body r, (createHandler schema store newId body).1 = some r →
      f ∉ docKeys r) ∧
    (∀ cn pn fb praw pval qsel body store r,
      (updateHandler schema refSchemas stores cn pn fb praw pval qsel none body store).1 =
        UpdateResult.ok (some r) → f ∉ docKeys r) ∧
    (∀ store req g p refC,
      getRefName schema p = some refC →
      isHiddenPath (refSchemas refC) g = true →
      ((refSchemas refC).paths.map (·.path)).Nodup →
      g ≠ "_id" →
      (∀ d0 ∈ store, ∀ v, getField d0 p = some v → refLike v = true) →
      ∀ d ∈ (listHandler schema refSchemas stores store req).body,
        ∀ v, getField d p = some v → keysAbsentShallow g v = true) ∧
    (∀ cn pn fb praw pval qsel qpop store r g p refC,
      getRefName schema p = some refC →
      isHiddenPath (refSchemas refC) g = true →
      ((refSchemas refC).paths.map (·.path)).Nodup →
      g ≠ "_id" →
      (∀ d0 ∈ store, ∀ v, getField d0 p = some v → refLike v = true) →
      showHandler schema refSchemas stores cn pn fb praw pval qsel qpop store =
        ShowResult.ok r →
      ∀ v, getField r p = some v → keysAbsentShallow g v = true) := by
  have hselnm : f ∉ getSelectedList schema :=
    not_mem_selectedList_of_hidden schema f hnodup hf
  have hfields : ∀ qsel, f ∉ effectiveSelect (getSelectedList schema) (getSelected schema) qsel :=
    fun qsel => not_mem_effectiveSelect _ _ qsel f hselnm hsub
  have hproj : ∀ (fields : List String), f ∉ fields → ∀ d1 : Doc,
      f ∉ docKeys (project fields d1) := by
    intro fields hnf d1 hmem
    rcases mem_docKeys_project fields d1 f hmem with h1 | h2
    · exact hfid h1
    · exact hnf h2
  refine ⟨?_, ?_, ?_, ?_, ?_, ?_⟩
  · -- List
    intro store req d hd
    simp only [listHandler] at hd
    rw [foldl_map_comm] at hd
    rw [List.map_map] at hd
    rcases List.mem_map.mp hd with ⟨d1, _, he⟩
    subst he
    simp only [Function.comp_apply]
    rw [docKeys_populateFold]
    exact hproj _ (hfields req.qselect) d1
  · -- Show
    intro cn pn fb praw pval qsel qpop store r hshow
    simp only [showHandler] at hshow
    cases hfo : findOne store [(fb, pval)] with
    | none => rw [hfo] at hshow; cases hshow
    | some r0 =>
      rw [hfo] at hshow
      injection hshow with hr
      subst hr
      rw [docKeys_populateFold]
      exact hproj _ (hfields qsel) r0
  · -- Create
    intro store newId body r hcr
    simp only [createHandler] at hcr
    cases hfw : findWhereId (store ++ [buildDoc schema newId
        (flattenRelationships schema body)]) (.vId newId) with
    | none => rw [hfw] at hcr; cases hcr
    | some d1 =>
      rw [hfw] at hcr
      injection hcr with hr
      subst hr
      exact hproj _ hselnm d1
  · -- Update without populate
    intro cn pn fb praw pval qsel body store r hup
    simp only [updateHandler] at hup
    cases hfo : findOne store [(fb, pval)] with
    | none => rw [hfo] at hup; cases hup
    | some item =>
      simp only [hfo] at hup
      cases hcond : jsLtOpt
          (getField (omitKeys (flattenRelationships schema body) (getUneditable schema))
            schema.versionKey)
          (getField item schema.versionKey) with
      | true => rw [hcond] at hup; cases hup
      | false =>
        rw [hcond] at hup
        simp only [Bool.false_eq_true, if_false] at hup
        cases hfo2 : findOne
            (saveDoc store item (extendDoc item
              (omitKeys (flattenRelationships schema body) (getUneditable schema))))
            [(fb, pval)] with
        | none => rw [hfo2] at hup; cases hup
        | some d1 =>
          rw [hfo2] at hup
          simp only [splitPopulate, Option.map_some', List.foldl_nil] at hup
          injection hup with hr
          injection hr with hr2
          subst hr2
          exact hproj _ (hfields qsel) d1
  · -- nested populate in List
    intro store req g p refC hrefName hg hnodupRef hgid hstore d hd v hgf
    have hgsel : g ∉ getSelectedList (refSchemas refC) :=
      not_mem_selectedList_of_hidden (refSchemas refC) g hnodupRef hg
    simp only [listHandler] at hd
    rw [foldl_map_comm, List.map_map] at hd
    rcases List.mem_map.mp hd with ⟨d1, hd1, he⟩
    subst he
    simp only [Function.comp_apply] at hgf
    have hinit : ∀ v0, getField (project (effectiveSelect (getSelectedList schema)
        (getSelected schema) req.qselect) d1) p = some v0 →
        refLike v0 = true ∨ keysAbsentShallow g v0 = true := by
      intro v0 hv0
      have hv1 := getField_project_some _ _ _ _ hv0
      exact Or.inl (hstore d1 (mem_of_mem_mongoFind _ _ _ _ _ _ hd1) v0 hv1)
    rcases populateFold_value stores refSchemas schema p refC g hrefName hgsel hgid
        (splitPopulate req.qpopulate) _ hinit v hgf with h | h
    · exact refLike_keysAbsent g v h
    · exact h
  · -- nested populate in Show
    intro cn pn fb praw pval qsel qpop store r g p refC hrefName hg hnodupRef hgid hstore
      hshow v hgf
    have hgsel : g ∉ getSelectedList (refSchemas refC) :=
      not_mem_selectedList_of_hidden (refSchemas refC) g hnodupRef hg
    simp only [showHandler] at hshow
    cases hfo : findOne store [(fb, pval)] with
    | none => rw [hfo] at hshow; cases hshow
    | some r0 =>
      rw [hfo] at hshow
      injection hshow with hr
      subst hr
      have hinit : ∀ v0, getField (project (effectiveSelect (getSelectedList schema)
          (getSelected schema) qsel) r0) p = some v0 →
          refLike v0 = true ∨ keysAbsentShallow g v0 = true := by
        intro v0 hv0
        have hv1 := getField_project_some _ _ _ _ hv0
        exact Or.inl (hstore r0 (findOne_matches store _ r0 hfo).2 v0 hv1)
      rcases populateFold_value stores refSchemas schema p refC g hrefName hgsel hgid
          (splitPopulate qpop) _ hinit v hgf with h | h
      · exact refLike_keysAbsent g v h
      · exact h

/-- C1 counterexample: a PUT with `populate=posts` answers with the posts
populated as whole documents — `_addUpdate` re-fetches with
`populate(populated)` and no per-path `select` — so the referenced post's
hidden field (a field with `restSelected: false`) appears in the Update
JSON response. -/
theorem c1_counterexample :
    isHiddenPath postsSchemaEx "hidden" = true ∧
    getRefName usersSchemaEx "posts" = some "Post" ∧
    refSchemasEx "Post" = postsSchemaEx ∧
    c1UpdateRespPosts = some (Value.vList [Value.vDoc
      [("_id", .vId 10), ("title", .vStr "t"), ("hidden", .vStr "secret"),
       ("body", .vStr "b"), ("__v", .vNum 0)]]) ∧
    (c1UpdateRespPosts.map (keysAbsentShallow "hidden")) = some false := by
  exact ⟨rfl, rfl, rfl, rfl, rfl⟩

/-- C1 witness: the hidden-field-absence guarantees applied to the
concrete user collection and its hidden `password` field. -/
theorem c1_witness :
    ((usersSchemaEx.paths.map (·.path)).Nodup ∧
     isHiddenPath usersSchemaEx "password" = true ∧
     ("password" : String) ≠ "_id" ∧
     strHas (getSelected usersSchemaEx) "password" = false) ∧
    ((∀ store req, ∀ d ∈ (listHandler usersSchemaEx refSchemasEx storesEx store req).body,
       "password" ∉ docKeys d) ∧
     (∀ cn pn fb praw pval qsel qpop store r,
       showHandler usersSchemaEx refSchemasEx storesEx cn pn fb praw pval qsel qpop store =
         ShowResult.ok r → "password" ∉ docKeys r) ∧
     (∀ store newId body r, (createHandler usersSchemaEx store newId body).1 = some r →
       "password" ∉ docKeys r) ∧
     (∀ cn pn fb praw pval qsel body store r,
       (updateHandler usersSchemaEx refSchemasEx storesEx cn pn fb praw pval qsel none
         body store).1 = UpdateResult.ok (some r) → "password" ∉ docKeys r) ∧
     (∀ store req g p refC,
       getRefName usersSchemaEx p = some refC →
       isHiddenPath (refSchemasEx refC) g = true →
       ((refSchemasEx refC).paths.map (·.path)).Nodup →
       g ≠ "_id" →
       (∀ d0 ∈ store, ∀ v, getField d0 p = some v → refLike v = true) →
       ∀ d ∈ (listHandler usersSchemaEx refSchemasEx storesEx store req).body,
         ∀ v, getField d p = some v → keysAbsentShallow g v = true) ∧
     (∀ cn pn fb praw pval qsel qpop store r g p refC,
       getRefName usersSchemaEx p = some refC →
       isHiddenPath (refSchemasEx refC) g = true →
       ((refSchemasEx refC).paths.map (·.path)).Nodup →
       g ≠ "_id" →
       (∀ d0 ∈ store, ∀ v, getField d0 p = some v → refLike v = true) →
       showHandler usersSchemaEx refSchemasEx storesEx cn pn fb praw pval qsel qpop store =
         ShowResult.ok r →
       ∀ v, getField r p = some v → keysAbsentShallow g v = true)) :=
  ⟨⟨by decide, rfl, by decide, by decide⟩,
   c1_hidden_field_absent usersSchemaEx refSchemasEx storesEx "password"
     (by decide) rfl (by decide) (by decide)⟩

end KeystoneRest
